import Mathlib

/-!
Verification of the NexIntel observation pipeline (news agent + tag splitter).

Shallow embedding of the core of the repository:
  * `src/agents/news_agent.py`: `_rough_token_len`, `_guess_asset_simple` key
    helpers, `NewsDataAgent._filter_events`, `NewsDataAgent._dedup_and_limit`;
  * `src/factors/tag_split.py`: `_norm_tag`, `_rough_token_len`, `_obs_key`,
    `TagSplitConfig.from_yaml`, `TagSplitter._choose_primary_tag`,
    `TagSplitter.split`;
  * `src/factors/schema.py` / `src/data/sources/base.py`: the data model.

Python strings are modelled as lists of characters (`Str`).  String
primitives (`.lower()`, `.upper()`, `.strip()`, `.split()`, `re.sub` on the
fixed patterns used by the source, `str.count`) are modelled over the ASCII
character classes the source effectively works with; this is spelled out at
each definition.
-/

/-- Python strings, modelled as character lists (so that all operations are
structurally recursive and kernel-evaluable). -/
abbrev Str := List Char

/-- Shorthand: the character list of a Lean string literal. -/
def str (s : String) : Str := s.data

/-- ASCII whitespace, the class matched by Python's `str.split()`, `str.strip()`
and `\s` on ASCII text: space, tab, LF, VT, FF, CR (code points 9-13 and 32). -/
def isSpaceC (c : Char) : Bool := c.toNat = 32 || (9 ≤ c.toNat && c.toNat ≤ 13)

/-- ASCII lowercasing of one character (Python `str.lower()` restricted to
ASCII, which is all the source's fixed patterns distinguish). -/
def lowerChar (c : Char) : Char :=
  if 65 ≤ c.toNat ∧ c.toNat ≤ 90 then Char.ofNat (c.toNat + 32) else c

/-- ASCII uppercasing of one character (Python `str.upper()` on ASCII). -/
def upperChar (c : Char) : Char :=
  if 97 ≤ c.toNat ∧ c.toNat ≤ 122 then Char.ofNat (c.toNat - 32) else c

/-- `s.lower()`. -/
def lowerC (s : Str) : Str := s.map lowerChar

/-- `s.upper()`. -/
def upperC (s : Str) : Str := s.map upperChar

/-- `s.strip()` from the left (drop leading whitespace). -/
def stripLeft (s : Str) : Str := s.dropWhile (fun c => isSpaceC c)

/-- Python `s.strip()`: drop leading and trailing whitespace. -/
def stripWs (s : Str) : Str := ((stripLeft s).reverse.dropWhile (fun c => isSpaceC c)).reverse

/-- Strip a given character from both ends (Python `s.strip("_")`). -/
def stripChar (x : Char) (s : Str) : Str :=
  (((s.dropWhile (· = x)).reverse.dropWhile (· = x))).reverse

/-- `re.sub(p+, r, s)` for a character class `p`: replace every maximal run of
characters satisfying `p` by the single character `r`. -/
def collapseRuns (p : Char → Bool) (r : Char) : Str → Str
  | [] => []
  | [c] => if p c then [r] else [c]
  | c1 :: c2 :: rest =>
    if p c1 && p c2 then collapseRuns p r (c2 :: rest)
    else (if p c1 then r else c1) :: collapseRuns p r (c2 :: rest)

/-- Maximal runs of characters satisfying `p` (with `p` = non-whitespace this
is Python's `s.split()`, which discards empty pieces). `acc` is the current
run, reversed. -/
def runsAux (p : Char → Bool) : Str → Str → List Str
  | acc, [] => if acc = [] then [] else [acc.reverse]
  | acc, c :: rest =>
    if p c then runsAux p (c :: acc) rest
    else if acc = [] then runsAux p [] rest
    else acc.reverse :: runsAux p [] rest

/-- All maximal runs of characters satisfying `p` in `s`. -/
def runsOf (p : Char → Bool) (s : Str) : List Str := runsAux p [] s

/-- Python `len(s.split())`: number of whitespace-separated words. -/
def countWords (s : Str) : Nat := (runsOf (fun c => !isSpaceC c) s).length

/-!
## Data model (`src/factors/schema.py`, `src/data/sources/base.py`)

`Observation` is the dataclass of `src/factors/schema.py`: fields `text`,
`asset`, `confidence`, `tags` — note there is NO `rating` field (this matters
for claim C7).  `confidence` is a Python float that no function under
verification ever reads or computes with; it is carried as an opaque integer
stand-in.  `Event`'s `timestamp`, `sentiment` and `meta` fields are likewise
never read by the verified functions and are omitted from the embedding.
`TextualFactor.date` is an opaque timestamp, modelled as an integer.
-/

structure Observation where
  text : Str
  asset : Option Str
  confidence : Int
  tags : List Str
deriving DecidableEq

structure Event where
  asset : Option Str
  source : Str
  title : Str
  content : Str
deriving DecidableEq

structure TextualFactor where
  date : Int
  agent_name : Str
  observations : List Observation
  length_tokens : Nat
  preference : Option Str
  raw_sources : List Event
deriving DecidableEq

/-!
## Token length estimate

`_rough_token_len(*texts)` (identical in `news_agent.py` lines 30-32 and
`tag_split.py` lines 25-28) is `int(words * 1.3)` where `words` is the total
whitespace-split word count.  `int()` truncates toward zero, and for every
word count below `2 ^ 50` the double-precision product `words * 1.3` has the
same floor as the exact rational `words * 13 / 10` (the rounding error is far
below the distance 1/10 from the nearest integer, and for exact multiples of
10 the product rounds to the exact integer), so the function is embedded as
natural-number division `words * 13 / 10`.
-/

def roughTokenLen (texts : List Str) : Nat :=
  ((texts.map countWords).sum * 13) / 10

/-- Token estimate of a single observation's text, as used by the budget
checks of both `_dedup_and_limit` and `TagSplitter.split`. -/
def tokLen (o : Observation) : Nat := roughTokenLen [o.text]

/-!
## Dedup keys

`tag_split.py` `_obs_key` (lines 30-33) normalizes:
  `f"{(obs.asset or 'NA').upper()}|{re.sub(r'\s+', ' ', obs.text).strip().lower()}"`
`news_agent.py` `_dedup_and_limit` (line 320) does NOT:
  `f"{obs.asset or 'NA'}|{obs.text}"`.
Python's `or` treats the empty string like `None`, hence the emptiness test.
-/

/-- `obs.asset or 'NA'`: the asset, with `None` and the empty string replaced
by `"NA"`. -/
def assetOrNA (a : Option Str) : Str :=
  match a with
  | some s => if s = [] then str "NA" else s
  | none => str "NA"

/-- `re.sub(r"\s+", " ", t).strip().lower()`: collapse whitespace runs to a
single space, strip, lowercase. -/
def normTextWs (t : Str) : Str := lowerC (stripWs (collapseRuns isSpaceC ' ' t))

/-- `_obs_key` of `tag_split.py`: the normalized global dedup key. -/
def obsKey (o : Observation) : Str :=
  upperC (assetOrNA o.asset) ++ str "|" ++ normTextWs o.text

/-- The key `_dedup_and_limit` of `news_agent.py` actually computes (line 320):
raw asset-or-NA and raw text, no case folding, no whitespace normalization. -/
def agentKey (o : Observation) : Str :=
  assetOrNA o.asset ++ str "|" ++ o.text

/-!
## `NewsDataAgent._dedup_and_limit` (`news_agent.py` lines 314-335)

The loop walks the observations in order; a seen key is skipped
(`continue`), a fresh key is added to `seen`, then the budget is checked
(`break` on overflow, returning what was kept so far), then the candidate is
appended and the loop breaks as soon as `len(kept) >= max_obs`.  `max_obs`
and `max_tokens_factor` are Python ints, embedded as `Int`.
-/

def dedupLoop (maxObs budget : Int) : List Str → List Observation → Int →
    List Observation → List Observation
  | _, kept, _, [] => kept
  | seen, kept, total, o :: rest =>
    if agentKey o ∈ seen then dedupLoop maxObs budget seen kept total rest
    else
      if total + (tokLen o : Int) > budget then kept
      else
        if (kept.length + 1 : Int) ≥ maxObs then kept ++ [o]
        else dedupLoop maxObs budget (agentKey o :: seen) (kept ++ [o])
               (total + (tokLen o : Int)) rest

def dedupAndLimit (maxObs budget : Int) (obs : List Observation) : List Observation :=
  dedupLoop maxObs budget [] [] 0 obs


/-!
## Tag normalization and priority (`tag_split.py` lines 12-33, 70-85)
-/

/-- The default priority list `DEFAULT_TAG_PRIORITY` (`tag_split.py` lines
12-16). -/
def DEFAULT_TAG_PRIORITY : List Str :=
  [str "etf", str "onchain", str "derivatives", str "orderbook",
   str "tokenomics", str "stablecoins", str "protocol", str "ecosystem",
   str "liquidity", str "narratives", str "macro", str "regulation",
   str "cex", str "dex", str "sentiment", str "news"]

/-- Lowercase ASCII letters and digits, the class `[a-z0-9]` of `_norm_tag`'s
regex. -/
def isLowerAlnum (c : Char) : Bool :=
  (97 ≤ c.toNat && c.toNat ≤ 122) || (48 ≤ c.toNat && c.toNat ≤ 57)

/-- `_norm_tag` (`tag_split.py` lines 19-23): strip+lowercase, collapse runs
of `[^a-z0-9]+` to `_`, collapse `_+` to `_` (already a no-op at this point),
strip `_` from both ends. -/
def normTag (t : Str) : Str :=
  stripChar '_'
    (collapseRuns (· = '_') '_'
      (collapseRuns (fun c => !isLowerAlnum c) '_' (lowerC (stripWs t))))

/-- Runtime configuration dataclass `TagSplitConfig` (`tag_split.py` lines
36-43).  The two limits are Python ints. -/
structure TagSplitConfig where
  enabled : Bool
  priority : List Str
  max_obs_per_factor : Int
  max_tokens_factor : Int
  fallback_tag : Str
deriving DecidableEq

/-- The index a Python dict comprehension `{t: i for i, t in enumerate(l)}`
assigns to `t`: the position of the LAST occurrence of `t` in `l` (later
duplicates overwrite earlier ones), starting the count at `i0`. -/
def dictIdxAux (t : Str) : List Str → Nat → Option Nat
  | [], _ => none
  | s :: rest, i =>
    match dictIdxAux t rest (i + 1) with
    | some j => some j
    | none => if s = t then some i else none

/-- `self._prio_index.get(t, 10**9)`: the sort key used by
`_choose_primary_tag`; tags absent from the priority list get `10 ^ 9`. -/
def prioKey (priority : List Str) (t : Str) : Nat :=
  (dictIdxAux t priority 0).getD (10 ^ 9)

/-!
## A stable insertion sort

Python's `list.sort(key=...)` is a stable sort; the result of a stable sort
by key is unique, so it is embedded as a stable insertion sort parametrized
by a boolean "less or equal" test (`le a b = true` keeps `a` before `b`).
-/

def insertK {α : Type} (le : α → α → Bool) (a : α) : List α → List α
  | [] => [a]
  | b :: l => if le a b then a :: b :: l else b :: insertK le a l

def sortK {α : Type} (le : α → α → Bool) : List α → List α
  | [] => []
  | a :: l => insertK le a (sortK le l)

/-- `TagSplitter._choose_primary_tag` (`tag_split.py` lines 78-85): normalize
the non-empty raw tags, sort stably by priority index, take the first (or
`None` if nothing is left).  `tags_n` filters on the RAW tag being non-empty;
a normalized tag may still be empty. -/
def choosePrimaryTag (priority : List Str) (tags : List Str) : Option Str :=
  if tags = [] then none
  else
    match sortK (fun a b => prioKey priority a ≤ prioKey priority b)
        ((tags.filter (fun t => !(t = []))).map normTag) with
    | [] => none
    | t :: _ => some t

/-!
## `TagSplitter.split` (`tag_split.py` lines 87-146)
-/

/-- The primary-tag assignment of the split's first pass (lines 101-106):
`_choose_primary_tag(obs.tags or [])`, falling back to `cfg.fallback_tag`
when the result is `None` or falsy (the empty string). -/
def assignTag (cfg : TagSplitConfig) (o : Observation) : Str :=
  match choosePrimaryTag cfg.priority o.tags with
  | some t => if t = [] then cfg.fallback_tag else t
  | none => cfg.fallback_tag

/-- Look up a bucket in the insertion-ordered bucket association list
(Python `by_tag.setdefault(tag, [])`, reading part). -/
def bucketOf (byTag : List (Str × List Observation)) (t : Str) : List Observation :=
  match byTag with
  | [] => []
  | (t', b) :: rest => if t' = t then b else bucketOf rest t

/-- Whether a tag already has a bucket. -/
def hasBucket (byTag : List (Str × List Observation)) (t : Str) : Bool :=
  match byTag with
  | [] => false
  | (t', _) :: rest => if t' = t then true else hasBucket rest t

/-- `by_tag.setdefault(tag, [])`: insert an empty bucket at the end if the
tag is new (the bucket stays, possibly empty, exactly as in the Python dict). -/
def ensureBucket (byTag : List (Str × List Observation)) (t : Str) :
    List (Str × List Observation) :=
  if hasBucket byTag t then byTag else byTag ++ [(t, [])]

/-- Replace the bucket of tag `t` (in-place `bucket.append(obs)` after
`setdefault`). -/
def setBucket (byTag : List (Str × List Observation)) (t : Str)
    (b : List Observation) : List (Str × List Observation) :=
  match byTag with
  | [] => []
  | (t', b') :: rest => if t' = t then (t, b) :: rest else (t', b') :: setBucket rest t b

/-- Sum of rough token lengths of a bucket:
`sum(_rough_token_len(o.text) for o in bucket)`. -/
def sumTok (l : List Observation) : Nat := (l.map tokLen).sum

/-- The grouping loop of `split` (lines 113-126): global dedup on `_obs_key`
shared across buckets, then the per-bucket count/token check; the key is
recorded as seen only when the observation is actually appended. -/
def splitLoop (cfg : TagSplitConfig) :
    List (Observation × Str) → List (Str × List Observation) → List Str →
    List (Str × List Observation)
  | [], byTag, _ => byTag
  | (o, t) :: rest, byTag, seen =>
    if obsKey o ∈ seen then splitLoop cfg rest byTag seen
    else
      let byTag' := ensureBucket byTag t
      let bucket := bucketOf byTag' t
      if (bucket.length : Int) < cfg.max_obs_per_factor ∧
         (sumTok bucket : Int) + (tokLen o : Int) ≤ cfg.max_tokens_factor then
        splitLoop cfg rest (setBucket byTag' t (bucket ++ [o])) (obsKey o :: seen)
      else splitLoop cfg rest byTag' seen

/-- Lexicographic `≤` on strings by code point (Python string comparison),
as a boolean test for the stable sort of output factors. -/
def strLeB : Str → Str → Bool
  | [], _ => true
  | _ :: _, [] => false
  | a :: xs, b :: ys =>
    if a.toNat < b.toNat then true
    else if b.toNat < a.toNat then false
    else strLeB xs ys

/-- Build the derived factor of one non-empty bucket (lines 129-142). -/
def mkTagFactor (f : TextualFactor) (t : Str) (obs : List Observation) :
    TextualFactor :=
  ⟨f.date, f.agent_name ++ str "#" ++ t, obs, sumTok obs, some t, f.raw_sources⟩

/-- `TagSplitter.split` (lines 87-146): disabled config passes the factor
through; otherwise assign primary tags, group with global dedup and
per-bucket limits, build one factor per non-empty bucket, sort by derived
agent name. -/
def split (cfg : TagSplitConfig) (f : TextualFactor) : List TextualFactor :=
  if cfg.enabled = false then [f]
  else
    let assignments := f.observations.map (fun o => (o, assignTag cfg o))
    let byTag := splitLoop cfg assignments [] []
    let factors := byTag.filterMap
      (fun p => if p.2 = [] then none else some (mkTagFactor f p.1 p.2))
    sortK (fun a b => strLeB a.agent_name b.agent_name) factors

/-!
## `NewsDataAgent._filter_events` (`news_agent.py` lines 185-197)
-/

/-- Python `s.count(pat)` with fuel (the fuel is the length of `s`, which
bounds the number of steps): count non-overlapping occurrences of `pat`,
scanning from the left and skipping over each match.  Only used with a
non-empty `pat` (`_filter_events` returns early on a falsy preference). -/
def countOccurF (pat : Str) : Nat → Str → Nat
  | 0, _ => 0
  | _ + 1, [] => 0
  | fuel + 1, c :: rest =>
    if pat.isPrefixOf (c :: rest) then
      countOccurF pat fuel (List.drop (pat.length - 1) rest) + 1
    else countOccurF pat fuel rest

/-- `s.count(pat)` for non-empty `pat`. -/
def countOccur (pat s : Str) : Nat := countOccurF pat s.length s

/-- The score of one event (line 192):
`(f"{ev.title} {ev.content}".lower()).count(pref)` with `pref` the lowercased
preference. -/
def scoreEvent (p : Str) (ev : Event) : Nat :=
  countOccur (lowerC p) (lowerC (ev.title ++ str " " ++ ev.content))

/-- `_filter_events` (lines 185-197): falsy preference (None or empty) passes
the events through; otherwise score, sort stably by descending score, keep
the positive-score events, and fall back to the original list if none
scored. -/
def filterEvents (preference : Option Str) (events : List Event) : List Event :=
  match preference with
  | none => events
  | some p =>
    if p = [] then events
    else
      let scored := events.map (fun ev => (scoreEvent p ev, ev))
      let sorted := sortK (fun a b => b.1 ≤ a.1) scored
      let filtered := (sorted.filter (fun se => 0 < se.1)).map (fun se => se.2)
      if filtered = [] then events else filtered

/-!
## `TagSplitConfig.from_yaml` (`tag_split.py` lines 45-67)

The configuration mapping is a YAML-loaded Python value, embedded as
`PyVal`.  `.get` on a non-dict raises `AttributeError` and failed coercions
raise `TypeError`/`ValueError`; fallible paths are modelled with `Option`.
The `int()` coercion is modelled for ints and bools (Python additionally
parses numeric strings and truncates floats; those inputs make the embedding
fail where Python would succeed, which only ever weakens the theorems'
reach, and the claims concern absent keys whose defaults are already ints).
`list(...)` of the priority and the raw `fallback_tag` value must be a list
of strings resp. a string, the types every consumer of these fields
supplies and compares.
-/

inductive PyVal where
  | pnone : PyVal
  | pbool : Bool → PyVal
  | pint : Int → PyVal
  | pstr : Str → PyVal
  | plist : List PyVal → PyVal
  | pdict : List (Str × PyVal) → PyVal

/-- Python truthiness of the modelled values. -/
def truthy : PyVal → Bool
  | .pnone => false
  | .pbool b => b
  | .pint n => !(n = 0)
  | .pstr s => !(s = [])
  | .plist [] => false
  | .plist (_ :: _) => true
  | .pdict [] => false
  | .pdict (_ :: _) => true

/-- Dict lookup (keys of a Python dict are unique). -/
def lookupStr (d : List (Str × PyVal)) (k : Str) : Option PyVal :=
  match d with
  | [] => none
  | (k', v) :: rest => if k' = k then some v else lookupStr rest k

/-- `v.get(k, dflt)`: `AttributeError` (outer `none`) when `v` is not a
dict. -/
def getAttrD (v : PyVal) (k : Str) (dflt : PyVal) : Option PyVal :=
  match v with
  | .pdict d => some ((lookupStr d k).getD dflt)
  | _ => none

/-- `x or {}`. -/
def orDict (v : PyVal) : PyVal := if truthy v then v else .pdict []

/-- The extraction of the `split_by_tags` section (lines 56-58):
`((cfg.get("agents") or {}).get("news_data_agent") or {}).get("split_by_tags") or {}`. -/
def sbtOf (cfg : PyVal) : Option PyVal := do
  let a ← getAttrD cfg (str "agents") .pnone
  let n ← getAttrD (orDict a) (str "news_data_agent") .pnone
  let s ← getAttrD (orDict n) (str "split_by_tags") .pnone
  pure (orDict s)

/-- `int(v)` on the modelled values. -/
def asInt : PyVal → Option Int
  | .pint n => some n
  | .pbool b => some (if b then 1 else 0)
  | _ => none

/-- `list(v)` where a list of tag strings is expected. -/
def asStrList : PyVal → Option (List Str)
  | .plist l => l.mapM (fun x => match x with | .pstr s => some s | _ => none)
  | _ => none

/-- A value expected to be a string. -/
def asStr : PyVal → Option Str
  | .pstr s => some s
  | _ => none

/-- The body of `TagSplitConfig.from_yaml` after the `sbt` section has been
extracted (lines 60-67). -/
def fromYamlSbt (sbt : PyVal) : Option TagSplitConfig := do
  let pflv ← getAttrD sbt (str "per_factor_limits") .pnone
  let pfl := orDict pflv
  let env ← getAttrD sbt (str "enabled") (.pbool true)
  let prv ← getAttrD sbt (str "priority") (.plist (DEFAULT_TAG_PRIORITY.map .pstr))
  let mov ← getAttrD pfl (str "max_obs") (.pint 7)
  let mtv ← getAttrD pfl (str "max_tokens_factor") (.pint 4000)
  let fbv ← getAttrD sbt (str "fallback_tag") (.pstr (str "misc"))
  let prio ← asStrList prv
  let mo ← asInt mov
  let mt ← asInt mtv
  let fb ← asStr fbv
  pure ⟨truthy env, prio, mo, mt, fb⟩

/-- `TagSplitConfig.from_yaml` (lines 45-67). -/
def fromYaml (cfg : PyVal) : Option TagSplitConfig :=
  (sbtOf cfg).bind fromYamlSbt

/-- The default configuration value (`TagSplitConfig` field defaults, lines
39-43). -/
def defaultTagSplitConfig : TagSplitConfig :=
  ⟨true, DEFAULT_TAG_PRIORITY, 7, 4000, str "misc"⟩

/-!
## The `Observation` constructor mismatch (claims about the fallback path)

`src/factors/schema.py` declares the dataclass `Observation` with exactly
the fields below; a dataclass `__init__` rejects any other keyword with a
`TypeError`.  The fallback branch of `_llm_extract_observations`
(`news_agent.py` lines 276-284) calls
`Observation(text=..., asset=..., rating=0, tags=["news", "fallback"])`.
-/

/-- The field names of the `Observation` dataclass (`schema.py` lines 6-11),
which are exactly the keywords its generated `__init__` accepts. -/
def observationFieldNames : List Str :=
  [str "text", str "asset", str "confidence", str "tags"]

/-- The keyword arguments of the `Observation(...)` call in the fallback
branch of `_llm_extract_observations` (`news_agent.py` lines 277-282). -/
def fallbackObservationKwargs : List Str :=
  [str "text", str "asset", str "rating", str "tags"]

/-!
## Generic lemmas about the stable insertion sort
-/

theorem insertK_perm {α : Type} (le : α → α → Bool) (a : α) (l : List α) :
    (insertK le a l).Perm (a :: l) := by
  induction l with
  | nil => simp [insertK]
  | cons b t ih =>
    cases hle : le a b with
    | true => simp [insertK, hle]
    | false =>
      simp only [insertK, hle, Bool.false_eq_true, if_false]
      exact ((ih.cons b).trans (List.Perm.swap a b t))

theorem sortK_perm {α : Type} (le : α → α → Bool) (l : List α) :
    (sortK le l).Perm l := by
  induction l with
  | nil => simp [sortK]
  | cons a t ih => exact (insertK_perm le a (sortK le t)).trans (ih.cons a)

theorem insertK_pairwise {α : Type} (le : α → α → Bool)
    (htot : ∀ a b, le a b = true ∨ le b a = true)
    (htr : ∀ a b c, le a b = true → le b c = true → le a c = true)
    (a : α) (l : List α) (hl : l.Pairwise (fun x y => le x y = true)) :
    (insertK le a l).Pairwise (fun x y => le x y = true) := by
  induction l with
  | nil => simp [insertK]
  | cons b t ih =>
    rcases List.pairwise_cons.mp hl with ⟨hb, ht⟩
    cases hle : le a b with
    | true =>
      simp only [insertK, hle, if_true]
      refine List.pairwise_cons.mpr ⟨?_, hl⟩
      intro x hx
      rcases List.mem_cons.mp hx with rfl | hx'
      · exact hle
      · exact htr a b x hle (hb x hx')
    | false =>
      simp only [insertK, hle, Bool.false_eq_true, if_false]
      refine List.pairwise_cons.mpr ⟨?_, ih ht⟩
      intro x hx
      rcases List.mem_cons.mp ((insertK_perm le a t).mem_iff.mp hx) with rfl | hx'
      · rcases htot x b with h' | h'
        · rw [h'] at hle
          cases hle
        · exact h'
      · exact hb x hx'

theorem sortK_pairwise {α : Type} (le : α → α → Bool)
    (htot : ∀ a b, le a b = true ∨ le b a = true)
    (htr : ∀ a b c, le a b = true → le b c = true → le a c = true)
    (l : List α) : (sortK le l).Pairwise (fun x y => le x y = true) := by
  induction l with
  | nil => simp [sortK]
  | cons a t ih => exact insertK_pairwise le htot htr a (sortK le t) ih

/-- The head of the stable sort is a minimum of the input list. -/
theorem sortK_head_min {α : Type} (le : α → α → Bool)
    (htot : ∀ a b, le a b = true ∨ le b a = true)
    (htr : ∀ a b c, le a b = true → le b c = true → le a c = true)
    (l : List α) (m : α) (rest : List α) (h : sortK le l = m :: rest) :
    ∀ x ∈ l, le m x = true := by
  intro x hx
  have hx' : x ∈ m :: rest := by
    rw [← h]
    exact (sortK_perm le l).symm.subset hx
  rcases List.mem_cons.mp hx' with rfl | hx'
  · rcases htot x x with h' | h' <;> exact h'
  · have hp := sortK_pairwise le htot htr l
    rw [h] at hp
    exact (List.pairwise_cons.mp hp).1 x hx'

/-!
## Claim C4: the token estimate
-/

/-- C4 counterexample: the claim states the estimated token cost is
`round(wordCount * 1.3)`, so that a 3-word text costs `round(3.9) = 4`
tokens.  The code computes `int(words * 1.3)`, which truncates: a 3-word
text costs 3 tokens, not 4. -/
theorem roughTokenLen_three_words_ne_round :
    countWords (str "alpha beta gamma") = 3 ∧
    roughTokenLen [str "alpha beta gamma"] = 3 ∧
    roughTokenLen [str "alpha beta gamma"] ≠ 4 := by
  decide

/-- C4 amended: for every list of text fields, the estimated token cost
computed by `_rough_token_len` (shared by the deduplicator/budgeter and the
tag splitter) equals `floor(wordCount * 1.3)` — `int()` truncation, not
rounding — where `wordCount` is the number of whitespace-separated words
across the text fields.  Stated as the floor characterization
`10 * result ≤ 13 * wordCount < 10 * result + 10`. -/
theorem roughTokenLen_floor_spec (texts : List Str) :
    10 * roughTokenLen texts ≤ 13 * (texts.map countWords).sum ∧
    13 * (texts.map countWords).sum < 10 * roughTokenLen texts + 10 := by
  unfold roughTokenLen
  have h := Nat.div_add_mod ((texts.map countWords).sum * 13) 10
  have h2 := Nat.mod_lt ((texts.map countWords).sum * 13) (show 0 < 10 by decide)
  omega

/-!
## Claim C5: the deduplicator is prefix-greedy and breaks on overflow
-/

/-- The accumulated `kept` list is a prefix of the loop's result, and the
rest of the result is a subsequence of the remaining input. -/
theorem dedupLoop_kept_prefix (maxObs budget : Int) :
    ∀ (l : List Observation) (seen : List Str) (kept : List Observation)
      (total : Int),
      ∃ s, dedupLoop maxObs budget seen kept total l = kept ++ s ∧ s.Sublist l := by
  intro l
  induction l with
  | nil =>
    intro seen kept total
    exact ⟨[], by simp [dedupLoop], List.nil_sublist _⟩
  | cons o rest ih =>
    intro seen kept total
    by_cases hseen : agentKey o ∈ seen
    · rcases ih seen kept total with ⟨s, hs, hsub⟩
      exact ⟨s, by simp [dedupLoop, hseen, hs], hsub.cons o⟩
    · by_cases hbud : total + (tokLen o : Int) > budget
      · exact ⟨[], by simp [dedupLoop, hseen, hbud], List.nil_sublist _⟩
      · by_cases hmax : (kept.length + 1 : Int) ≥ maxObs
        · refine ⟨[o], by simp [dedupLoop, hseen, hbud, hmax], ?_⟩
          exact (List.nil_sublist rest).cons₂ o
        · rcases ih (agentKey o :: seen) (kept ++ [o]) (total + (tokLen o : Int))
            with ⟨s, hs, hsub⟩
          refine ⟨o :: s, ?_, hsub.cons₂ o⟩
          simp only [dedupLoop, if_neg hseen, if_neg hbud, if_neg hmax, hs]
          simp

/-- C5: `_dedup_and_limit` walks the input in order and its output is a
subsequence of the input (acceptance order equals input order); at a
non-duplicate candidate whose addition would exceed the token budget the
loop stops and returns exactly what was accepted so far (a break, so nothing
after that candidate is accepted even if it alone would fit); after
accepting an observation that brings the count to `maxObs` the loop likewise
stops and returns the accepted observations. -/
theorem dedupAndLimit_prefix_greedy (maxObs budget : Int) (l : List Observation) :
    (dedupAndLimit maxObs budget l).Sublist l ∧
    (∀ (seen : List Str) (kept : List Observation) (total : Int)
       (o : Observation) (rest : List Observation),
       agentKey o ∉ seen → total + (tokLen o : Int) > budget →
       dedupLoop maxObs budget seen kept total (o :: rest) = kept) ∧
    (∀ (seen : List Str) (kept : List Observation) (total : Int)
       (o : Observation) (rest : List Observation),
       agentKey o ∉ seen → ¬(total + (tokLen o : Int) > budget) →
       (kept.length + 1 : Int) ≥ maxObs →
       dedupLoop maxObs budget seen kept total (o :: rest) = kept ++ [o]) := by
  refine ⟨?_, ?_, ?_⟩
  · rcases dedupLoop_kept_prefix maxObs budget l [] [] 0 with ⟨s, hs, hsub⟩
    simpa [dedupAndLimit, hs] using hsub
  · intro seen kept total o rest hseen hbud
    simp [dedupLoop, hseen, hbud]
  · intro seen kept total o rest hseen hbud hmax
    simp [dedupLoop, hseen, hbud, hmax]

/-!
## Claim C3: the dedup keys
-/

/-- Two observations whose assets differ only in letter case and whose texts
differ only in whitespace: duplicates under `_obs_key`, but distinct for
`_dedup_and_limit`. -/
def c3ObsLower : Observation := ⟨str "BTC up", some (str "btc"), 1, []⟩

def c3ObsUpper : Observation := ⟨str "BTC  up", some (str "BTC"), 1, []⟩

/-- C3 counterexample: the claim states both the deduplicator and the tag
splitter identify observations by (uppercased asset-or-NA, lowercased
whitespace-collapsed text), so that the two observations below — identical
up to asset case and text whitespace — would be duplicates for both
components.  The tag splitter's `_obs_key` indeed identifies them, but
`NewsDataAgent._dedup_and_limit` keeps both: it compares the raw pair. -/
theorem dedup_key_not_normalized_cex :
    obsKey c3ObsLower = obsKey c3ObsUpper ∧
    dedupAndLimit 7 4000 [c3ObsLower, c3ObsUpper] = [c3ObsLower, c3ObsUpper] := by
  decide

/-- C3 amended: the identity used by the tag splitter's `_obs_key` is the
normalized pair — any two observations agreeing on the uppercased
asset-or-NA and on the lowercased whitespace-collapsed text share the key —
while `_dedup_and_limit` uses the raw pair `(asset or 'NA', text)`: its
output never retains two observations with equal raw key (but case- or
whitespace-variants are not duplicates for it, per the counterexample). -/
theorem dedup_keys_spec :
    (∀ o1 o2 : Observation,
       upperC (assetOrNA o1.asset) = upperC (assetOrNA o2.asset) →
       normTextWs o1.text = normTextWs o2.text →
       obsKey o1 = obsKey o2) ∧
    (∀ (maxObs budget : Int) (l : List Observation),
       ((dedupAndLimit maxObs budget l).map agentKey).Nodup) := by
  constructor
  · intro o1 o2 ha ht
    simp [obsKey, ha, ht]
  · intro maxObs budget l
    have main : ∀ (l : List Observation) (seen : List Str)
        (kept : List Observation) (total : Int),
        (kept.map agentKey).Nodup → (∀ o ∈ kept, agentKey o ∈ seen) →
        ((dedupLoop maxObs budget seen kept total l).map agentKey).Nodup := by
      intro l
      induction l with
      | nil =>
        intro seen kept total hnd _
        simpa [dedupLoop] using hnd
      | cons o rest ih =>
        intro seen kept total hnd hsub
        by_cases hseen : agentKey o ∈ seen
        · simpa [dedupLoop, hseen] using ih seen kept total hnd hsub
        · have hfresh : agentKey o ∉ kept.map agentKey := by
            intro hmem
            rcases List.mem_map.mp hmem with ⟨o', ho', he⟩
            exact hseen (he ▸ hsub o' ho')
          have hnd' : ((kept ++ [o]).map agentKey).Nodup := by
            rw [List.map_append]
            have : (agentKey o :: kept.map agentKey).Nodup :=
              List.nodup_cons.mpr ⟨hfresh, hnd⟩
            exact (List.perm_append_singleton _ _).nodup_iff.mpr this
          by_cases hbud : total + (tokLen o : Int) > budget
          · simpa [dedupLoop, hseen, hbud] using hnd
          · by_cases hmax : (kept.length + 1 : Int) ≥ maxObs
            · simpa [dedupLoop, hseen, hbud, hmax] using hnd'
            · have hsub' : ∀ o' ∈ kept ++ [o], agentKey o' ∈ agentKey o :: seen := by
                intro o' ho'
                rcases List.mem_append.mp ho' with h' | h'
                · exact List.mem_cons_of_mem _ (hsub o' h')
                · rcases List.mem_singleton.mp h' with rfl
                  exact List.mem_cons_self _ _
              simpa [dedupLoop, hseen, hbud, hmax] using
                ih (agentKey o :: seen) (kept ++ [o]) (total + (tokLen o : Int))
                  hnd' hsub'
    exact main l [] [] 0 (by simp) (by simp)

/-!
## Claim C1: the budget invariant
-/

theorem sumTok_append (l : List Observation) (o : Observation) :
    sumTok (l ++ [o]) = sumTok l + tokLen o := by
  simp [sumTok]

def c1Obs : Observation := ⟨str "alpha", none, 1, []⟩

/-- A disabled-splitting configuration with a zero observation cap. -/
def c1CfgOff : TagSplitConfig := ⟨false, DEFAULT_TAG_PRIORITY, 0, 4000, str "misc"⟩

def c1Factor : TextualFactor := ⟨0, str "NewsDataAgent", [c1Obs], 1, none, []⟩

/-- C1 counterexample: the budget/count invariant does not hold for every
configured `maxCount` and `maxTokenBudget`.  (i) With `max_obs = 0` the
deduplicator still keeps one observation (the count check runs only after an
append), so `count ≤ maxCount` fails; (ii) with a negative token budget even
the empty output violates `sum ≤ maxTokenBudget`; (iii) with splitting
disabled, `TagSplitter.split` passes the input factor through without
enforcing any limit. -/
theorem budget_invariant_cex :
    (dedupAndLimit 0 4000 [c1Obs] = [c1Obs] ∧
      ¬ (((dedupAndLimit 0 4000 [c1Obs]).length : Int) ≤ 0)) ∧
    (sumTok (dedupAndLimit 0 (-1) []) = 0 ∧ ¬ ((0 : Int) ≤ -1)) ∧
    (split c1CfgOff c1Factor = [c1Factor] ∧
      ¬ ((c1Factor.observations.length : Int) ≤ c1CfgOff.max_obs_per_factor)) := by
  decide

theorem dedupLoop_bounds (maxObs budget : Int) :
    ∀ (l : List Observation) (seen : List Str) (kept : List Observation)
      (total : Int),
      (kept.length : Int) < maxObs → total ≤ budget →
      (sumTok kept : Int) = total →
      ((dedupLoop maxObs budget seen kept total l).length : Int) ≤ maxObs ∧
      ((sumTok (dedupLoop maxObs budget seen kept total l)) : Int) ≤ budget := by
  intro l
  induction l with
  | nil =>
    intro seen kept total hlen htot hsum
    constructor
    · simpa [dedupLoop] using le_of_lt hlen
    · simp only [dedupLoop]
      omega
  | cons o rest ih =>
    intro seen kept total hlen htot hsum
    by_cases hseen : agentKey o ∈ seen
    · simpa [dedupLoop, hseen] using ih seen kept total hlen htot hsum
    · by_cases hbud : total + (tokLen o : Int) > budget
      · refine ⟨?_, ?_⟩ <;> simp only [dedupLoop, if_neg hseen, if_pos hbud]
        · exact le_of_lt hlen
        · omega
      · by_cases hmax : (kept.length + 1 : Int) ≥ maxObs
        · constructor
          · simp only [dedupLoop, if_neg hseen, if_neg hbud, if_pos hmax]
            rw [List.length_append, List.length_singleton]
            push_cast
            omega
          · simp only [dedupLoop, if_neg hseen, if_neg hbud, if_pos hmax]
            rw [sumTok_append]
            push_cast
            omega
        · have hlen' : ((kept ++ [o]).length : Int) < maxObs := by
            rw [List.length_append, List.length_singleton]
            push_cast
            omega
          have hsum' : (sumTok (kept ++ [o]) : Int) = total + (tokLen o : Int) := by
            rw [sumTok_append]
            push_cast
            omega
          simpa [dedupLoop, hseen, hbud, hmax] using
            ih (agentKey o :: seen) (kept ++ [o]) (total + (tokLen o : Int))
              hlen' (by omega) hsum'

theorem mem_ensureBucket (byTag : List (Str × List Observation)) (t : Str)
    (p : Str × List Observation) (h : p ∈ ensureBucket byTag t) :
    p ∈ byTag ∨ p = (t, []) := by
  unfold ensureBucket at h
  by_cases hb : hasBucket byTag t = true
  · rw [if_pos hb] at h
    exact Or.inl h
  · rw [if_neg hb] at h
    rcases List.mem_append.mp h with h' | h'
    · exact Or.inl h'
    · exact Or.inr (List.mem_singleton.mp h')

theorem mem_setBucket (t : Str) (b : List Observation)
    (p : Str × List Observation) :
    ∀ byTag : List (Str × List Observation),
      p ∈ setBucket byTag t b → p = (t, b) ∨ p ∈ byTag := by
  intro byTag
  induction byTag with
  | nil => intro h; simp [setBucket] at h
  | cons q rest ih =>
    intro h
    rcases q with ⟨t', b'⟩
    by_cases he : t' = t
    · simp only [setBucket, if_pos he] at h
      rcases List.mem_cons.mp h with h' | h'
      · exact Or.inl h'
      · exact Or.inr (List.mem_cons_of_mem _ h')
    · simp only [setBucket, if_neg he] at h
      rcases List.mem_cons.mp h with h' | h'
      · exact Or.inr (h' ▸ List.mem_cons_self _ _)
      · rcases ih h' with h'' | h''
        · exact Or.inl h''
        · exact Or.inr (List.mem_cons_of_mem _ h'')

/-- Every bucket built by the grouping loop of `TagSplitter.split` is empty
or within both per-bucket limits. -/
theorem splitLoop_bucket_bounds (cfg : TagSplitConfig) :
    ∀ (asg : List (Observation × Str)) (byTag : List (Str × List Observation))
      (seen : List Str),
      (∀ p ∈ byTag, p.2 = [] ∨
        ((p.2.length : Int) ≤ cfg.max_obs_per_factor ∧
         (sumTok p.2 : Int) ≤ cfg.max_tokens_factor)) →
      ∀ p ∈ splitLoop cfg asg byTag seen, p.2 = [] ∨
        ((p.2.length : Int) ≤ cfg.max_obs_per_factor ∧
         (sumTok p.2 : Int) ≤ cfg.max_tokens_factor) := by
  intro asg
  induction asg with
  | nil =>
    intro byTag seen hinv p hp
    simp only [splitLoop] at hp
    exact hinv p hp
  | cons a rest ih =>
    intro byTag seen hinv p hp
    rcases a with ⟨o, t⟩
    by_cases hseen : obsKey o ∈ seen
    · simp only [splitLoop, if_pos hseen] at hp
      exact ih byTag seen hinv p hp
    · simp only [splitLoop, if_neg hseen] at hp
      have hinv' : ∀ q ∈ ensureBucket byTag t, q.2 = [] ∨
          ((q.2.length : Int) ≤ cfg.max_obs_per_factor ∧
           (sumTok q.2 : Int) ≤ cfg.max_tokens_factor) := by
        intro q hq
        rcases mem_ensureBucket byTag t q hq with h' | h'
        · exact hinv q h'
        · exact Or.inl (by rw [h'])
      by_cases hfit : ((bucketOf (ensureBucket byTag t) t).length : Int) <
            cfg.max_obs_per_factor ∧
          (sumTok (bucketOf (ensureBucket byTag t) t) : Int) + (tokLen o : Int) ≤
            cfg.max_tokens_factor
      · rw [if_pos hfit] at hp
        refine ih _ _ ?_ p hp
        intro q hq
        rcases mem_setBucket t (bucketOf (ensureBucket byTag t) t ++ [o]) q _ hq
          with h' | h'
        · refine Or.inr ?_
          rw [h']
          constructor
          · simp only [List.length_append, List.length_singleton]
            push_cast
            omega
          · rw [sumTok_append]
            push_cast
            omega
        · exact hinv' q h'
      · rw [if_neg hfit] at hp
        exact ih _ _ hinv' p hp

/-- C1 amended: the budget invariant holds (i) for `_dedup_and_limit`
whenever `maxCount ≥ 1` and `maxTokenBudget ≥ 0`, and (ii) for every factor
produced by `TagSplitter.split` whenever splitting is enabled, with no side
condition on the limits. -/
theorem budget_invariant_amended (maxObs budget : Int) (l : List Observation)
    (cfg : TagSplitConfig) (f : TextualFactor) :
    (1 ≤ maxObs → 0 ≤ budget →
      ((dedupAndLimit maxObs budget l).length : Int) ≤ maxObs ∧
      ((sumTok (dedupAndLimit maxObs budget l)) : Int) ≤ budget) ∧
    (cfg.enabled = true → ∀ F ∈ split cfg f,
      ((F.observations.length : Int) ≤ cfg.max_obs_per_factor ∧
       (sumTok F.observations : Int) ≤ cfg.max_tokens_factor)) := by
  constructor
  · intro hmax hbud
    exact dedupLoop_bounds maxObs budget l [] [] 0 (by simpa using hmax) hbud
      (by simp [sumTok])
  · intro hen F hF
    rw [split, if_neg (by simp [hen])] at hF
    simp only at hF
    have hF' := (sortK_perm _ _).subset hF
    rcases List.mem_filterMap.mp hF' with ⟨p, hp, hsome⟩
    by_cases hnil : p.2 = []
    · rw [if_pos hnil] at hsome
      cases hsome
    · rw [if_neg hnil] at hsome
      have hbounds := splitLoop_bucket_bounds cfg
        (f.observations.map (fun o => (o, assignTag cfg o))) [] [] (by simp)
        p hp
      rcases hbounds with h' | h'
      · exact absurd h' hnil
      · have hobs : F.observations = p.2 := by
          rw [← Option.some_inj.mp hsome]
          rfl
        rw [hobs]
        exact h'

/-!
## Claim C6: primary-tag choice is priority-determined
-/

theorem dictIdxAux_spec (t : Str) :
    ∀ (l : List Str) (i j : Nat), dictIdxAux t l i = some j →
      i ≤ j ∧ l[j - i]? = some t := by
  intro l
  induction l with
  | nil => intro i j h; simp [dictIdxAux] at h
  | cons s rest ih =>
    intro i j h
    simp only [dictIdxAux] at h
    cases hrest : dictIdxAux t rest (i + 1) with
    | some j' =>
      rw [hrest] at h
      rcases ih (i + 1) j' hrest with ⟨hle, hget⟩
      have hjj : j' = j := Option.some_inj.mp h
      subst hjj
      refine ⟨by omega, ?_⟩
      have hj : j' - i = (j' - (i + 1)) + 1 := by omega
      rw [hj, List.getElem?_cons_succ]
      exact hget
    | none =>
      rw [hrest] at h
      by_cases hst : s = t
      · rw [if_pos hst] at h
        obtain rfl : i = j := Option.some_inj.mp h
        simp [hst]
      · rw [if_neg hst] at h
        cases h

/-- Distinct tags never share a priority index below the absent sentinel. -/
theorem prioKey_inj (priority : List Str) (t1 t2 : Str)
    (h1 : prioKey priority t1 < 10 ^ 9) (h2 : prioKey priority t2 < 10 ^ 9)
    (he : prioKey priority t1 = prioKey priority t2) : t1 = t2 := by
  unfold prioKey at h1 h2 he
  cases hd1 : dictIdxAux t1 priority 0 with
  | none =>
    rw [hd1] at h1
    simp at h1
  | some j1 =>
    cases hd2 : dictIdxAux t2 priority 0 with
    | none =>
      rw [hd2] at h2
      simp at h2
    | some j2 =>
      rw [hd1, hd2] at he
      simp only [Option.getD_some] at he
      subst he
      have s1 := (dictIdxAux_spec t1 priority 0 j1 hd1).2
      have s2 := (dictIdxAux_spec t2 priority 0 j1 hd2).2
      simp only [Nat.sub_zero] at s1 s2
      rw [s1] at s2
      exact Option.some_inj.mp s2

/-- Unconditional shape of `_choose_primary_tag`: whenever the normalized
non-empty tags are not themselves empty, the result is a minimum of them
under the priority index. -/
theorem choosePrimaryTag_head (priority : List Str) (tags : List Str)
    (hne : (tags.filter (fun t => !(t = []))).map normTag ≠ []) :
    ∃ m, choosePrimaryTag priority tags = some m ∧
      m ∈ (tags.filter (fun t => !(t = []))).map normTag ∧
      ∀ t ∈ (tags.filter (fun t => !(t = []))).map normTag,
        prioKey priority m ≤ prioKey priority t := by
  have htags : ¬(tags = []) := by
    intro h
    subst h
    simp at hne
  have htot : ∀ a b : Str,
      (decide (prioKey priority a ≤ prioKey priority b) = true) ∨
      (decide (prioKey priority b ≤ prioKey priority a) = true) := by
    intro a b
    rcases Nat.le_total (prioKey priority a) (prioKey priority b) with h' | h'
    · exact Or.inl (by simpa using h')
    · exact Or.inr (by simpa using h')
  have htr : ∀ a b c : Str,
      decide (prioKey priority a ≤ prioKey priority b) = true →
      decide (prioKey priority b ≤ prioKey priority c) = true →
      decide (prioKey priority a ≤ prioKey priority c) = true := by
    intro a b c hab hbc
    simp only [decide_eq_true_eq] at hab hbc ⊢
    omega
  unfold choosePrimaryTag
  rw [if_neg htags]
  cases hsort : sortK (fun a b => prioKey priority a ≤ prioKey priority b)
      ((tags.filter (fun t => !(t = []))).map normTag) with
  | nil =>
    exfalso
    have := sortK_perm (fun a b : Str =>
      decide (prioKey priority a ≤ prioKey priority b))
      ((tags.filter (fun t => !(t = []))).map normTag)
    rw [hsort] at this
    exact hne this.symm.eq_nil
  | cons m rest =>
    refine ⟨m, rfl, ?_, ?_⟩
    · have : m ∈ m :: rest := List.mem_cons_self _ _
      rw [← hsort] at this
      exact (sortK_perm _ _).subset this
    · intro t ht
      have := sortK_head_min _ htot htr _ m rest hsort t ht
      simpa using this

/-- C6: when at least one of an observation's normalized tags occurs in the
priority list, `_choose_primary_tag` returns the normalized tag with the
smallest priority index (tags absent from the list sort after all present
ones), and the result is the same for every reordering of the tag list. -/
theorem choosePrimaryTag_min_priority (priority : List Str) (tags : List Str)
    (h : ∃ t0 ∈ (tags.filter (fun t => !(t = []))).map normTag,
           prioKey priority t0 < 10 ^ 9) :
    ∃ m, choosePrimaryTag priority tags = some m ∧
      m ∈ (tags.filter (fun t => !(t = []))).map normTag ∧
      prioKey priority m < 10 ^ 9 ∧
      (∀ t ∈ (tags.filter (fun t => !(t = []))).map normTag,
         prioKey priority m ≤ prioKey priority t) ∧
      (∀ tags' : List Str, tags'.Perm tags →
         choosePrimaryTag priority tags' = some m) := by
  obtain ⟨t0, ht0, hlt0⟩ := h
  have hne : (tags.filter (fun t => !(t = []))).map normTag ≠ [] := by
    intro hnil
    rw [hnil] at ht0
    cases ht0
  obtain ⟨m, hch, hmem, hmin⟩ := choosePrimaryTag_head priority tags hne
  have hmlt : prioKey priority m < 10 ^ 9 := lt_of_le_of_lt (hmin t0 ht0) hlt0
  refine ⟨m, hch, hmem, hmlt, hmin, ?_⟩
  intro tags' hperm
  have hpermTn : ((tags'.filter (fun t => !(t = []))).map normTag).Perm
      ((tags.filter (fun t => !(t = []))).map normTag) :=
    (hperm.filter _).map normTag
  have hne' : (tags'.filter (fun t => !(t = []))).map normTag ≠ [] := by
    intro hnil
    rw [hnil] at hpermTn
    exact hne hpermTn.symm.eq_nil
  obtain ⟨m', hch', hmem', hmin'⟩ := choosePrimaryTag_head priority tags' hne'
  have hm'm : prioKey priority m' ≤ prioKey priority m :=
    hmin' m (hpermTn.symm.subset hmem)
  have hmm' : prioKey priority m ≤ prioKey priority m' :=
    hmin m' (hpermTn.subset hmem')
  have : m' = m :=
    prioKey_inj priority m' m (lt_of_le_of_lt hm'm hmlt) hmlt (le_antisymm hm'm hmm')
  rw [hch', this]

/-!
## Claim C2: the tag split partitions the surviving observations
-/

/-- All observations stored across the buckets, in bucket order. -/
def allObs (byTag : List (Str × List Observation)) : List Observation :=
  (byTag.map (fun p => p.2)).flatten

/-- All observations across a list of factors, in order. -/
def obsOfFactors (L : List TextualFactor) : List Observation :=
  (L.map (fun F => F.observations)).flatten

theorem allObs_append (a b : List (Str × List Observation)) :
    allObs (a ++ b) = allObs a ++ allObs b := by
  simp [allObs]

theorem allObs_ensureBucket (byTag : List (Str × List Observation)) (t : Str) :
    allObs (ensureBucket byTag t) = allObs byTag := by
  unfold ensureBucket
  by_cases hb : hasBucket byTag t = true
  · rw [if_pos hb]
  · rw [if_neg hb, allObs_append]
    simp [allObs]

theorem hasBucket_append_singleton (t : Str) (b : List Observation) :
    ∀ byTag : List (Str × List Observation),
      hasBucket (byTag ++ [(t, b)]) t = true := by
  intro byTag
  induction byTag with
  | nil => simp [hasBucket]
  | cons q rest ih =>
    rcases q with ⟨t', b'⟩
    by_cases he : t' = t
    · simp [hasBucket, he]
    · simpa [hasBucket, he] using ih

theorem hasBucket_ensureBucket (byTag : List (Str × List Observation)) (t : Str) :
    hasBucket (ensureBucket byTag t) t = true := by
  unfold ensureBucket
  by_cases hb : hasBucket byTag t = true
  · rw [if_pos hb]
    exact hb
  · rw [if_neg hb]
    exact hasBucket_append_singleton t [] byTag

theorem allObs_setBucket_append (o : Observation) (t : Str) :
    ∀ byTag : List (Str × List Observation), hasBucket byTag t = true →
      (allObs (setBucket byTag t (bucketOf byTag t ++ [o]))).Perm
        (o :: allObs byTag) := by
  intro byTag
  induction byTag with
  | nil => intro h; simp [hasBucket] at h
  | cons q rest ih =>
    intro h
    rcases q with ⟨t', b'⟩
    by_cases he : t' = t
    · have h1 : bucketOf ((t', b') :: rest) t = b' := by
        simp [bucketOf, he]
      have h2 : setBucket ((t', b') :: rest) t (b' ++ [o]) = (t, b' ++ [o]) :: rest := by
        simp [setBucket, he]
      rw [h1, h2]
      simp only [allObs, List.map_cons, List.flatten_cons]
      exact (List.perm_append_singleton o b').append_right _
    · have hb : hasBucket rest t = true := by
        simpa [hasBucket, he] using h
      have h1 : bucketOf ((t', b') :: rest) t = bucketOf rest t := by
        simp [bucketOf, he]
      have h2 : ∀ b, setBucket ((t', b') :: rest) t b = (t', b') :: setBucket rest t b := by
        intro b
        simp [setBucket, he]
      rw [h1, h2]
      simp only [allObs, List.map_cons, List.flatten_cons]
      exact ((ih hb).append_left b').trans List.perm_middle

/-- Loop invariant of the grouping pass: the bucketed observations have
pairwise-distinct `_obs_key`s, every bucketed key is recorded in `seen`, and
every bucketed observation comes from the source pool `src`. -/
theorem splitLoop_partition (cfg : TagSplitConfig) (src : List Observation) :
    ∀ (asg : List (Observation × Str)) (byTag : List (Str × List Observation))
      (seen : List Str),
      (∀ p ∈ asg, p.1 ∈ src) →
      ((allObs byTag).map obsKey).Nodup →
      (∀ k ∈ (allObs byTag).map obsKey, k ∈ seen) →
      (∀ o ∈ allObs byTag, o ∈ src) →
      ((allObs (splitLoop cfg asg byTag seen)).map obsKey).Nodup ∧
      (∀ o ∈ allObs (splitLoop cfg asg byTag seen), o ∈ src) := by
  intro asg
  induction asg with
  | nil =>
    intro byTag seen _ hnd _ hsrc
    exact ⟨by simpa [splitLoop] using hnd, by simpa [splitLoop] using hsrc⟩
  | cons a rest ih =>
    intro byTag seen hasg hnd hseen hsrc
    rcases a with ⟨o, t⟩
    have hasg' : ∀ p ∈ rest, p.1 ∈ src := fun p hp =>
      hasg p (List.mem_cons_of_mem _ hp)
    by_cases hk : obsKey o ∈ seen
    · simp only [splitLoop, if_pos hk]
      exact ih byTag seen hasg' hnd hseen hsrc
    · simp only [splitLoop, if_neg hk]
      have hndE : ((allObs (ensureBucket byTag t)).map obsKey).Nodup := by
        rw [allObs_ensureBucket]
        exact hnd
      have hseenE : ∀ k ∈ (allObs (ensureBucket byTag t)).map obsKey, k ∈ seen := by
        rw [allObs_ensureBucket]
        exact hseen
      have hsrcE : ∀ o' ∈ allObs (ensureBucket byTag t), o' ∈ src := by
        rw [allObs_ensureBucket]
        exact hsrc
      by_cases hfit : ((bucketOf (ensureBucket byTag t) t).length : Int) <
            cfg.max_obs_per_factor ∧
          (sumTok (bucketOf (ensureBucket byTag t) t) : Int) + (tokLen o : Int) ≤
            cfg.max_tokens_factor
      · rw [if_pos hfit]
        have hperm : (allObs (setBucket (ensureBucket byTag t) t
            (bucketOf (ensureBucket byTag t) t ++ [o]))).Perm
            (o :: allObs byTag) := by
          have := allObs_setBucket_append o t (ensureBucket byTag t)
            (hasBucket_ensureBucket byTag t)
          rw [allObs_ensureBucket] at this
          exact this
        refine ih _ _ hasg' ?_ ?_ ?_
        · refine (hperm.map obsKey).nodup_iff.mpr ?_
          simp only [List.map_cons]
          refine List.nodup_cons.mpr ⟨?_, hnd⟩
          intro hmem
          exact hk (hseen _ hmem)
        · intro k hkmem
          have := (hperm.map obsKey).subset hkmem
          simp only [List.map_cons] at this
          rcases List.mem_cons.mp this with h' | h'
          · exact h' ▸ List.mem_cons_self _ _
          · exact List.mem_cons_of_mem _ (hseen k h')
        · intro o' ho'
          rcases List.mem_cons.mp (hperm.subset ho') with h' | h'
          · exact h' ▸ hasg (o, t) (List.mem_cons_self _ _)
          · exact hsrc o' h'
      · rw [if_neg hfit]
        exact ih _ _ hasg' hndE hseenE hsrcE

/-- The factors built from the buckets carry exactly the bucketed
observations, in bucket order (empty buckets contribute nothing). -/
theorem obsOfFactors_filterMap (f : TextualFactor) :
    ∀ byTag : List (Str × List Observation),
      obsOfFactors (byTag.filterMap
        (fun p => if p.2 = [] then none else some (mkTagFactor f p.1 p.2))) =
      allObs byTag := by
  intro byTag
  induction byTag with
  | nil => simp [obsOfFactors, allObs]
  | cons q rest ih =>
    rcases q with ⟨t, b⟩
    by_cases hb : b = []
    · subst hb
      simpa [allObs, List.filterMap_cons] using ih
    · simp only [List.filterMap_cons, if_neg hb]
      simp only [obsOfFactors, allObs, List.map_cons, List.flatten_cons] at ih ⊢
      rw [ih]
      rfl

/-- In a factor list whose concatenated observations have pairwise-distinct
keys, each of those observations lies in exactly one factor. -/
theorem countP_factors_eq_one :
    ∀ (L : List TextualFactor) (o : Observation),
      ((obsOfFactors L).map obsKey).Nodup → o ∈ obsOfFactors L →
      L.countP (fun F => decide (o ∈ F.observations)) = 1 := by
  intro L
  induction L with
  | nil => intro o _ h; simp [obsOfFactors] at h
  | cons F rest ih =>
    intro o hnd hmem
    have hsplit : obsOfFactors (F :: rest) = F.observations ++ obsOfFactors rest := by
      simp [obsOfFactors]
    rw [hsplit] at hnd hmem
    rw [List.map_append] at hnd
    rcases List.nodup_append.mp hnd with ⟨hnd1, hnd2, hdisj⟩
    rw [List.countP_cons]
    by_cases ho : o ∈ F.observations
    · have hnotrest : ∀ G ∈ rest, o ∉ G.observations := by
        intro G hG hoG
        refine hdisj (List.mem_map_of_mem obsKey ho) (List.mem_map_of_mem obsKey ?_)
        unfold obsOfFactors
        exact List.mem_flatten.mpr
          ⟨G.observations, List.mem_map_of_mem _ hG, hoG⟩
      have hzero : rest.countP (fun F => decide (o ∈ F.observations)) = 0 := by
        refine List.countP_eq_zero.mpr ?_
        intro G hG
        simpa using hnotrest G hG
      simp [hzero, ho]
    · have hmem' : o ∈ obsOfFactors rest := by
        rcases List.mem_append.mp hmem with h' | h'
        · exact absurd h' ho
        · exact h'
      simp only [ho, decide_eq_true_eq, if_neg, decide_False]
      simpa [ho] using ih o hnd2 hmem'

/-- C2: with splitting enabled, no two observations across the output
factors of `TagSplitter.split` share a dedup key, every output observation's
key occurs among the input factor's observations' keys, and each surviving
observation lies in exactly one output factor. -/
theorem split_partition_invariant (cfg : TagSplitConfig) (f : TextualFactor)
    (hen : cfg.enabled = true) :
    ((obsOfFactors (split cfg f)).map obsKey).Nodup ∧
    (∀ o ∈ obsOfFactors (split cfg f),
       obsKey o ∈ f.observations.map obsKey) ∧
    (∀ o ∈ obsOfFactors (split cfg f),
       (split cfg f).countP (fun F => decide (o ∈ F.observations)) = 1) := by
  have hloop := splitLoop_partition cfg f.observations
    (f.observations.map (fun o => (o, assignTag cfg o))) [] []
    (by intro p hp; rcases List.mem_map.mp hp with ⟨o, ho, rfl⟩; exact ho)
    (by simp [allObs]) (by simp [allObs]) (by simp [allObs])
  have hsplit : split cfg f =
      sortK (fun a b => strLeB a.agent_name b.agent_name)
        ((splitLoop cfg (f.observations.map (fun o => (o, assignTag cfg o))) [] []).filterMap
          (fun p => if p.2 = [] then none else some (mkTagFactor f p.1 p.2))) := by
    rw [split, if_neg (by simp [hen])]
  have hpermF : (split cfg f).Perm
      ((splitLoop cfg (f.observations.map (fun o => (o, assignTag cfg o))) [] []).filterMap
        (fun p => if p.2 = [] then none else some (mkTagFactor f p.1 p.2))) := by
    rw [hsplit]
    exact sortK_perm _ _
  have hpermObs : (obsOfFactors (split cfg f)).Perm
      (allObs (splitLoop cfg (f.observations.map (fun o => (o, assignTag cfg o))) [] [])) := by
    rw [← obsOfFactors_filterMap f]
    exact (hpermF.map (fun F => F.observations)).flatten
  have hnd : ((obsOfFactors (split cfg f)).map obsKey).Nodup :=
    (hpermObs.map obsKey).nodup_iff.mpr hloop.1
  refine ⟨hnd, ?_, ?_⟩
  · intro o ho
    exact List.mem_map_of_mem obsKey (hloop.2 o (hpermObs.subset ho))
  · intro o ho
    exact countP_factors_eq_one (split cfg f) o hnd ho

/-!
## Claim C10: budget rejection does not consume the dedup key
-/

def c10Cfg : TagSplitConfig := ⟨true, DEFAULT_TAG_PRIORITY, 1, 4000, str "misc"⟩

def c10Obs1 : Observation := ⟨str "alpha", none, 1, [str "etf"]⟩

def c10Obs2 : Observation := ⟨str "beta", none, 1, [str "etf"]⟩

def c10Obs3 : Observation := ⟨str "beta", none, 1, [str "news"]⟩

def c10Factor : TextualFactor :=
  ⟨0, str "NewsDataAgent", [c10Obs1, c10Obs2, c10Obs3], 3, none, []⟩

/-- C10: in `TagSplitter.split`, an observation rejected by a bucket limit
does not get its key into the shared seen set.  Concretely, with a 1-element
bucket cap: the second observation (tag "etf") is rejected because the etf
bucket is full, yet the third observation — an equal dedup key, different
tag — is still accepted into the news bucket.  Budget rejection discards
only that占occurrence, not the key. -/
theorem split_budget_rejection_key_not_seen :
    obsKey c10Obs2 = obsKey c10Obs3 ∧
    split c10Cfg c10Factor =
      [⟨0, str "NewsDataAgent#etf", [c10Obs1], 1, some (str "etf"), []⟩,
       ⟨0, str "NewsDataAgent#news", [c10Obs3], 1, some (str "news"), []⟩] ∧
    c10Obs2 ∉ obsOfFactors (split c10Cfg c10Factor) ∧
    c10Obs3 ∈ obsOfFactors (split c10Cfg c10Factor) := by
  decide

/-!
## Claim C8: the preference filter
-/

theorem map_snd_map_pair {β : Type} (f : β → Nat) (l : List β) :
    (List.map (fun se : Nat × β => se.2) (l.map (fun ev => (f ev, ev)))) = l := by
  induction l with
  | nil => rfl
  | cons a t ih =>
    simp only [List.map_cons]
    rw [ih]

/-- C8: with no configured preference the event list passes through; with a
non-empty preference `p`, if no event mentions `p` the original list is
returned (fail-open), and if some event scores positively the output is
exactly the positively-scoring events (a permutation of the score-positive
filter of the input) ordered by non-increasing score. -/
theorem filterEvents_spec (p : Str) (events : List Event) (hp : ¬(p = [])) :
    filterEvents none events = events ∧
    ((∀ ev ∈ events, scoreEvent p ev = 0) →
       filterEvents (some p) events = events) ∧
    ((∃ ev ∈ events, 0 < scoreEvent p ev) →
       (filterEvents (some p) events).Perm
         (events.filter (fun ev => decide (0 < scoreEvent p ev))) ∧
       (filterEvents (some p) events).Pairwise
         (fun a b => scoreEvent p b ≤ scoreEvent p a)) := by
  have hpermFil :
      ((sortK (fun a b : Nat × Event => b.1 ≤ a.1)
          (events.map (fun ev => (scoreEvent p ev, ev)))).filter
            (fun se => 0 < se.1)).Perm
        ((events.map (fun ev => (scoreEvent p ev, ev))).filter
            (fun se => 0 < se.1)) :=
    (sortK_perm _ _).filter _
  have hfilmap :
      ((events.map (fun ev => (scoreEvent p ev, ev))).filter
          (fun se => 0 < se.1)) =
        ((events.filter (fun ev => decide (0 < scoreEvent p ev))).map
          (fun ev => (scoreEvent p ev, ev))) := by
    rw [List.filter_map]
    rfl
  have hperm :
      (((sortK (fun a b : Nat × Event => b.1 ≤ a.1)
          (events.map (fun ev => (scoreEvent p ev, ev)))).filter
            (fun se => 0 < se.1)).map (fun se => se.2)).Perm
        (events.filter (fun ev => decide (0 < scoreEvent p ev))) := by
    refine (hpermFil.map _).trans ?_
    rw [hfilmap, map_snd_map_pair]
  refine ⟨rfl, ?_, ?_⟩
  · intro hzero
    have hnil : events.filter (fun ev => decide (0 < scoreEvent p ev)) = [] := by
      refine List.filter_eq_nil_iff.mpr ?_
      intro ev hev
      simp [hzero ev hev]
    rw [hnil] at hperm
    have hfe : (((sortK (fun a b : Nat × Event => b.1 ≤ a.1)
        (events.map (fun ev => (scoreEvent p ev, ev)))).filter
          (fun se => 0 < se.1)).map (fun se => se.2)) = [] := hperm.eq_nil
    simp only [filterEvents, if_neg hp]
    rw [hfe]
    simp
  · intro hex
    have hne : events.filter (fun ev => decide (0 < scoreEvent p ev)) ≠ [] := by
      rcases hex with ⟨ev, hev, hpos⟩
      intro hnil
      have : ev ∈ events.filter (fun ev => decide (0 < scoreEvent p ev)) :=
        List.mem_filter.mpr ⟨hev, by simpa using hpos⟩
      rw [hnil] at this
      cases this
    have hfe : (((sortK (fun a b : Nat × Event => b.1 ≤ a.1)
        (events.map (fun ev => (scoreEvent p ev, ev)))).filter
          (fun se => 0 < se.1)).map (fun se => se.2)) ≠ [] := by
      intro hnil
      rw [hnil] at hperm
      exact hne hperm.symm.eq_nil
    have hshow : filterEvents (some p) events =
        (((sortK (fun a b : Nat × Event => b.1 ≤ a.1)
          (events.map (fun ev => (scoreEvent p ev, ev)))).filter
            (fun se => 0 < se.1)).map (fun se => se.2)) := by
      simp only [filterEvents, if_neg hp]
      rw [if_neg hfe]
    rw [hshow]
    refine ⟨hperm, ?_⟩
    have htot : ∀ a b : Nat × Event,
        (decide (b.1 ≤ a.1) = true) ∨ (decide (a.1 ≤ b.1) = true) := by
      intro a b
      rcases Nat.le_total b.1 a.1 with h' | h'
      · exact Or.inl (by simpa using h')
      · exact Or.inr (by simpa using h')
    have htr : ∀ a b c : Nat × Event,
        decide (b.1 ≤ a.1) = true → decide (c.1 ≤ b.1) = true →
        decide (c.1 ≤ a.1) = true := by
      intro a b c hab hbc
      simp only [decide_eq_true_eq] at hab hbc ⊢
      omega
    have hsorted := (sortK_pairwise (fun a b : Nat × Event => b.1 ≤ a.1)
      htot htr (events.map (fun ev => (scoreEvent p ev, ev)))).filter
      (fun se => 0 < se.1)
    rw [List.pairwise_map]
    refine hsorted.imp_of_mem ?_
    intro a b ha hb hle
    have hmma : a ∈ events.map (fun ev => (scoreEvent p ev, ev)) :=
      (sortK_perm _ _).subset (List.mem_filter.mp ha).1
    have hmmb : b ∈ events.map (fun ev => (scoreEvent p ev, ev)) :=
      (sortK_perm _ _).subset (List.mem_filter.mp hb).1
    rcases List.mem_map.mp hmma with ⟨eva, _, rfl⟩
    rcases List.mem_map.mp hmmb with ⟨evb, _, rfl⟩
    simpa using hle

/-!
## Claim C9: `from_yaml` defaults
-/

/-- A configuration whose `split_by_tags` section is present, lacks the
`enabled` key, and overrides the priority list. -/
def c9Cfg : PyVal :=
  .pdict [(str "agents", .pdict [(str "news_data_agent", .pdict
    [(str "split_by_tags", .pdict
      [(str "priority", .plist [.pstr (str "foo")])])])])]

/-- C9 counterexample: the claim states that whenever the `split_by_tags`
section lacks the `enabled` key, `from_yaml` yields the full default
configuration (default priority included).  On `c9Cfg` the section lacks
`enabled`, yet the produced priority is the configured `["foo"]`, not
`DEFAULT_TAG_PRIORITY`. -/
theorem fromYaml_missing_enabled_cex :
    sbtOf c9Cfg = some (.pdict [(str "priority", .plist [.pstr (str "foo")])]) ∧
    (lookupStr [(str "priority", .plist [.pstr (str "foo")])]
      (str "enabled")).isNone = true ∧
    fromYaml c9Cfg = some ⟨true, [str "foo"], 7, 4000, str "misc"⟩ ∧
    ¬ ([str "foo"] = DEFAULT_TAG_PRIORITY) := by
  refine ⟨rfl, rfl, rfl, by decide⟩

/-- Whatever else the section configures, the `enabled` field of a
successfully parsed configuration is the truthiness of the `enabled` entry,
defaulting to true. -/
theorem fromYamlSbt_enabled (d : List (Str × PyVal)) (c : TagSplitConfig)
    (hc : fromYamlSbt (.pdict d) = some c) :
    c.enabled = truthy ((lookupStr d (str "enabled")).getD (.pbool true)) := by
  simp only [fromYamlSbt, getAttrD, Option.some_bind, Option.bind_eq_bind] at hc
  rcases Option.bind_eq_some.mp hc with ⟨mov, hmov, hc2⟩
  rcases Option.bind_eq_some.mp hc2 with ⟨mtv, hmtv, hc3⟩
  rcases Option.bind_eq_some.mp hc3 with ⟨prio, hprio, hc4⟩
  rcases Option.bind_eq_some.mp hc4 with ⟨mo, hmo, hc5⟩
  rcases Option.bind_eq_some.mp hc5 with ⟨mt, hmt, hc6⟩
  rcases Option.bind_eq_some.mp hc6 with ⟨fb, hfb, hc7⟩
  simp only [Option.pure_def] at hc7
  rw [← Option.some_inj.mp hc7]

/-- C9 amended: when the extracted `split_by_tags` section is empty (in
particular when it is absent), `from_yaml` produces the full default
configuration — enabled, `DEFAULT_TAG_PRIORITY`, 7 observations, 4000
tokens, fallback "misc"; and whenever the section merely lacks the
`enabled` key, any configuration `from_yaml` produces has `enabled = true`
(tag splitting is on by default), while the other fields may take their
configured values. -/
theorem fromYaml_defaults_amended (cfg : PyVal) :
    (sbtOf cfg = some (.pdict []) → fromYaml cfg = some defaultTagSplitConfig) ∧
    (∀ (d : List (Str × PyVal)) (c : TagSplitConfig),
       sbtOf cfg = some (.pdict d) →
       (lookupStr d (str "enabled")).isNone = true →
       fromYaml cfg = some c → c.enabled = true) := by
  constructor
  · intro hs
    rw [fromYaml, hs]
    rfl
  · intro d c hs hlk hc
    rw [fromYaml, hs] at hc
    have hnone : lookupStr d (str "enabled") = none :=
      Option.isNone_iff_eq_none.mp hlk
    rw [fromYamlSbt_enabled d c hc, hnone]
    rfl

/-!
## Claim C7: the fallback construction and the `Observation` schema
-/

/-- C7 (evidence of the code bug): the fallback branch of
`_llm_extract_observations` constructs `Observation(..., rating=0, ...)`,
but the `Observation` dataclass of `schema.py` has no `rating` field (it has
`confidence`), so the generated `__init__` rejects the call with a
`TypeError` and the extractor propagates that exception instead of returning
the fallback observations. -/
theorem observation_rating_kwarg_mismatch :
    str "rating" ∈ fallbackObservationKwargs ∧
    str "rating" ∉ observationFieldNames := by
  decide

/-!
## Witnesses
-/

/-- Witness for C5: with a zero token budget and a one-word observation, the
loop hits a non-duplicate over-budget candidate and returns the empty
accepted list. -/
theorem dedupAndLimit_prefix_greedy_witness :
    dedupLoop 7 0 [] [] 0 [c1Obs] = [] :=
  (dedupAndLimit_prefix_greedy 7 0 [c1Obs]).2.1 [] [] 0 c1Obs [] (by decide)
    (by decide)

/-- Witness for C3 (amended): the two case/whitespace-variant observations
share the tag splitter's key. -/
theorem dedup_keys_spec_witness :
    obsKey c3ObsLower = obsKey c3ObsUpper :=
  dedup_keys_spec.1 c3ObsLower c3ObsUpper (by decide) (by decide)

/-- Witness for C1 (amended), at `maxObs = 7`, `budget = 4000`, and the
concrete split example. -/
theorem budget_invariant_amended_witness :
    (((dedupAndLimit 7 4000 [c1Obs]).length : Int) ≤ 7 ∧
      ((sumTok (dedupAndLimit 7 4000 [c1Obs])) : Int) ≤ 4000) ∧
    (((⟨0, str "NewsDataAgent#etf", [c10Obs1], 1, some (str "etf"), []⟩ :
        TextualFactor).observations.length : Int) ≤ c10Cfg.max_obs_per_factor ∧
      (sumTok (⟨0, str "NewsDataAgent#etf", [c10Obs1], 1, some (str "etf"), []⟩ :
        TextualFactor).observations : Int) ≤ c10Cfg.max_tokens_factor) :=
  ⟨(budget_invariant_amended 7 4000 [c1Obs] c10Cfg c10Factor).1 (by decide)
      (by decide),
   (budget_invariant_amended 7 4000 [c1Obs] c10Cfg c10Factor).2 (by decide)
      ⟨0, str "NewsDataAgent#etf", [c10Obs1], 1, some (str "etf"), []⟩
      (by decide)⟩

/-- Witness for C2, at the concrete split example, with the surviving
observation `c10Obs3`. -/
theorem split_partition_invariant_witness :
    ((obsOfFactors (split c10Cfg c10Factor)).map obsKey).Nodup ∧
    obsKey c10Obs3 ∈ c10Factor.observations.map obsKey ∧
    (split c10Cfg c10Factor).countP
      (fun F => decide (c10Obs3 ∈ F.observations)) = 1 :=
  ⟨(split_partition_invariant c10Cfg c10Factor (by decide)).1,
   (split_partition_invariant c10Cfg c10Factor (by decide)).2.1 c10Obs3 (by decide),
   (split_partition_invariant c10Cfg c10Factor (by decide)).2.2 c10Obs3 (by decide)⟩

/-- Witness for C6: tagged `["news", "etf"]` under the default priority, the
primary tag is `etf` for both orders of the tag list. -/
theorem choosePrimaryTag_min_priority_witness :
    choosePrimaryTag DEFAULT_TAG_PRIORITY [str "news", str "etf"] =
      some (str "etf") ∧
    choosePrimaryTag DEFAULT_TAG_PRIORITY [str "etf", str "news"] =
      some (str "etf") := by
  obtain ⟨m, hch, hmem, hlt, hmin, hperm⟩ :=
    choosePrimaryTag_min_priority DEFAULT_TAG_PRIORITY [str "news", str "etf"]
      ⟨str "etf", by decide, by decide⟩
  have hmem' : m = str "news" ∨ m = str "etf" := by
    have hl : (([str "news", str "etf"].filter (fun t => !(t = []))).map normTag) =
        [str "news", str "etf"] := by decide
    rw [hl] at hmem
    simpa using hmem
  have hm : m = str "etf" := by
    rcases hmem' with rfl | rfl
    · exfalso
      have h1 := hmin (str "etf") (by decide)
      have h2 : prioKey DEFAULT_TAG_PRIORITY (str "news") = 15 := by decide
      have h3 : prioKey DEFAULT_TAG_PRIORITY (str "etf") = 0 := by decide
      omega
    · rfl
  subst hm
  exact ⟨hch, hperm [str "etf", str "news"]
    (List.Perm.swap (str "news") (str "etf") [])⟩

def c8EvMatch : Event :=
  ⟨none, str "coindesk", str "ETF inflows grow",
    str "Record ETF volume as etf demand strengthens"⟩

def c8EvOther : Event :=
  ⟨none, str "coindesk", str "Quiet day", str "nothing to report"⟩

/-- Witness for C8: preference `etf`, one event mentioning ETF three times
and one never — the filter keeps exactly the matching event. -/
theorem filterEvents_spec_witness :
    (filterEvents (some (str "etf")) [c8EvOther, c8EvMatch]).Perm
      ([c8EvOther, c8EvMatch].filter
        (fun ev => decide (0 < scoreEvent (str "etf") ev))) ∧
    (filterEvents (some (str "etf")) [c8EvOther, c8EvMatch]).Pairwise
      (fun a b => scoreEvent (str "etf") b ≤ scoreEvent (str "etf") a) :=
  (filterEvents_spec (str "etf") [c8EvOther, c8EvMatch] (by decide)).2.2
    ⟨c8EvMatch, by decide, by decide⟩

/-- Witness for C9 (amended): the empty configuration yields the full
default tag-split configuration. -/
theorem fromYaml_defaults_amended_witness :
    fromYaml (.pdict []) = some defaultTagSplitConfig :=
  (fromYaml_defaults_amended (.pdict [])).1 rfl
